import Mathlib

/-!
A verification development for the `gotrie` repository (`src/trie/tree.go`):
an R-way trie keyed by the Unicode code points decoded from UTF-8 byte
strings.

Modelling conventions.  Bytes and runes are `Nat`; Go's `interface{}` values
are `Option V` (`none` is Go `nil`); the Go map `map[rune]*Node` is an
association list `List (Nat × Node V)`; functions that Go makes fallible
through `nil` results return `Option`; a Go nil-pointer dereference (a panic)
is modelled as a `none` result of the whole operation.  The `parent` back
pointers of the Go struct are not stored: every function below reaches nodes
from the root along `children`, and `Delete`'s parent-pointer climb is
re-expressed as recursion on the access path.  (After a key replacement the
Go object graph can hold stale parent pointers into the replaced node; the
functional model always resolves the parent as the node currently on the
path.)
-/

namespace GoTrie

/-- `utf8.RuneError`, the replacement character U+FFFD. -/
def runeError : Nat := 0xFFFD

/-- Is `b` a UTF-8 continuation byte (`0x80 ≤ b ≤ 0xBF`)? -/
def isCont (b : Nat) : Bool := decide (0x80 ≤ b) && decide (b ≤ 0xBF)

/-- Embedding of Go `utf8.DecodeRune`: decode the first code point of `s`,
returning the rune and the number of bytes consumed.  Empty input yields
`(runeError, 0)`; an invalid, overlong, surrogate or truncated encoding
yields `(runeError, 1)`.  A genuinely encoded U+FFFD (bytes EF BF BD)
decodes to `(runeError, 3)` — same rune value, different size. -/
def decodeRune : List Nat → Nat × Nat
  | [] => (runeError, 0)
  | b0 :: rest =>
    if b0 < 0x80 then (b0, 1)
    else if b0 < 0xC2 then (runeError, 1)
    else if b0 ≤ 0xDF then
      match rest with
      | b1 :: _ =>
        if isCont b1 then ((b0 % 0x20) * 0x40 + b1 % 0x40, 2) else (runeError, 1)
      | [] => (runeError, 1)
    else if b0 ≤ 0xEF then
      match rest with
      | b1 :: b2 :: _ =>
        let lo := if b0 = 0xE0 then 0xA0 else 0x80
        let hi := if b0 = 0xED then 0x9F else 0xBF
        if decide (lo ≤ b1) && decide (b1 ≤ hi) && isCont b2 then
          ((b0 % 0x10) * 0x1000 + (b1 % 0x40) * 0x40 + b2 % 0x40, 3)
        else (runeError, 1)
      | _ => (runeError, 1)
    else if b0 ≤ 0xF4 then
      match rest with
      | b1 :: b2 :: b3 :: _ =>
        let lo := if b0 = 0xF0 then 0x90 else 0x80
        let hi := if b0 = 0xF4 then 0x8F else 0xBF
        if decide (lo ≤ b1) && decide (b1 ≤ hi) && isCont b2 && isCont b3 then
          ((b0 % 8) * 0x40000 + (b1 % 0x40) * 0x1000 + (b2 % 0x40) * 0x40 + b3 % 0x40, 4)
        else (runeError, 1)
      | _ => (runeError, 1)
    else (runeError, 1)

/-- On nonempty input `utf8.DecodeRune` always consumes at least one byte. -/
theorem decodeRune_size_pos (s : List Nat) (h : s ≠ []) :
    1 ≤ (decodeRune s).2 := by
  match s with
  | [] => exact absurd rfl h
  | b0 :: rest =>
    simp only [decodeRune]
    repeat' split
    all_goals omega

/-- Dropping one decoded code point shortens a nonempty byte string. -/
theorem length_drop_decodeRune (s : List Nat) (h : s ≠ []) :
    (List.drop (decodeRune s).2 s).length < s.length := by
  have h1 := decodeRune_size_pos s h
  have h2 : 0 < s.length := List.length_pos.mpr h
  simp only [List.length_drop]
  omega

/-- Embedding of Go `utf8.EncodeRune` (as used through `utf8.RuneLen`):
the UTF-8 bytes of one rune; surrogates and out-of-range values encode the
replacement character, as in Go. -/
def encodeRune (r : Nat) : List Nat :=
  if r < 0x80 then [r]
  else if r < 0x800 then [0xC0 + r / 0x40, 0x80 + r % 0x40]
  else if 0xD800 ≤ r ∧ r ≤ 0xDFFF then [0xEF, 0xBF, 0xBD]
  else if r < 0x10000 then
    [0xE0 + r / 0x1000, 0x80 + r / 0x40 % 0x40, 0x80 + r % 0x40]
  else if r ≤ 0x10FFFF then
    [0xF0 + r / 0x40000, 0x80 + r / 0x1000 % 0x40, 0x80 + r / 0x40 % 0x40, 0x80 + r % 0x40]
  else [0xEF, 0xBF, 0xBD]

/-- Embedding of `parseRunesToText`: encode each rune in sequence. -/
def parseRunesToText (rs : List Nat) : List Nat := rs.flatMap encodeRune

/-- The decoding loop of `parseTextToRunes`: decode code point by code point,
failing (`none`, the Go `return nil`) as soon as a decoded value equals
`utf8.RuneError` — which a genuinely encoded U+FFFD also does. -/
def decodeLoop (s : List Nat) : Option (List Nat) :=
  match s with
  | [] => some []
  | b :: rest =>
    if (decodeRune (b :: rest)).1 = runeError then none
    else
      match decodeLoop ((b :: rest).drop (decodeRune (b :: rest)).2) with
      | some t => some ((decodeRune (b :: rest)).1 :: t)
      | none => none
termination_by s.length
decreasing_by
  exact length_drop_decodeRune _ (List.cons_ne_nil _ _)

/-- Embedding of `parseTextToRunes`: Go returns `nil` both for empty input
and for any decode failure; both are the empty rune list `[]` here. -/
def parseTextToRunes (s : List Nat) : List Nat := (decodeLoop s).getD []

/-- Clean UTF-8 decoding, modelling the `unicode/utf8` package's notion of a
well-formed string (as `utf8.Valid` would check it): a decode step is an
error only when it returns the error value in one byte or fewer, so a
genuinely encoded U+FFFD is accepted.  Used to state claims about keys that
are valid UTF-8; `tree.go` itself never distinguishes the two cases. -/
def utf8Decode (s : List Nat) : Option (List Nat) :=
  match s with
  | [] => some []
  | b :: rest =>
    if (decodeRune (b :: rest)).1 = runeError ∧ (decodeRune (b :: rest)).2 ≤ 1 then none
    else
      match utf8Decode ((b :: rest).drop (decodeRune (b :: rest)).2) with
      | some t => some ((decodeRune (b :: rest)).1 :: t)
      | none => none
termination_by s.length
decreasing_by
  exact length_drop_decodeRune _ (List.cons_ne_nil _ _)

/-- One trie node (`tree.go`'s `Node`): code point, terminating flag, value
(`none` = Go nil), children map, and depth.  The Go `parent` pointer is not
stored (see the file comment). -/
inductive Node (V : Type) : Type where
  | mk (code : Nat) (term : Bool) (value : Option V) (children : List (Nat × Node V))
      (depth : Nat)

/-- The node's code point. -/
def Node.code {V : Type} : Node V → Nat
  | .mk c _ _ _ _ => c

/-- The node's terminating flag (`Node.Terminating`). -/
def Node.term {V : Type} : Node V → Bool
  | .mk _ t _ _ _ => t

/-- The node's value (`Node.Value`; `none` = Go nil). -/
def Node.value {V : Type} : Node V → Option V
  | .mk _ _ v _ _ => v

/-- The node's children map (`Node.Children`). -/
def Node.children {V : Type} : Node V → List (Nat × Node V)
  | .mk _ _ _ cs _ => cs

/-- The node's depth (`Node.Depth`). -/
def Node.depth {V : Type} : Node V → Nat
  | .mk _ _ _ _ d => d

/-- Go map read `node.children[e]`. -/
def lookupChild {V : Type} : List (Nat × Node V) → Nat → Option (Node V)
  | [], _ => none
  | (c, m) :: rest, x => if c = x then some m else lookupChild rest x

/-- Go map write `n.children[code] = node` (`ReplaceOrInsertChildNode` /
`NewChildNode`'s insertion): replace the entry if the key is present,
otherwise add it. -/
def setChild {V : Type} : List (Nat × Node V) → Nat → Node V → List (Nat × Node V)
  | [], x, node => [(x, node)]
  | (c, m) :: rest, x, node =>
    if c = x then (x, node) :: rest else (c, m) :: setChild rest x node

/-- Go map delete `delete(n.children, r)` (`RemoveChild`). -/
def removeChild {V : Type} (cs : List (Nat × Node V)) (x : Nat) : List (Nat × Node V) :=
  cs.filter fun p => p.1 != x

/-- The trie (`tree.go`'s `Trie`): the root node and the stored-key count
(a Go `int`, modelled as `Int`). -/
structure Trie (V : Type) : Type where
  root : Node V
  size : Int

/-- `NewTrie`: a root with no children, depth 0, and size 0. -/
def newTrie (V : Type) : Trie V :=
  { root := Node.mk 0 false none [] 0, size := 0 }

/-- Embedding of `findNode`: strict walk along the decoded code points;
`none` when some child is missing.  (The Go nil-receiver guard is folded
away: the root is never nil.) -/
def findNode {V : Type} : Node V → List Nat → Option (Node V)
  | n, [] => some n
  | n, c :: rest =>
    match lookupChild n.children c with
    | none => none
    | some m => findNode m rest

/-- Embedding of `Trie.Find`: decode, walk, and — when the node found is
terminating — return a snapshot node carrying code, terminating flag, value
and depth but no children, exactly the composite literal the source builds.
`none` covers Go's `(nil, false)`. -/
def Trie.find {V : Type} (t : Trie V) (key : List Nat) : Option (Node V) :=
  match findNode t.root (parseTextToRunes key) with
  | none => none
  | some n =>
    if n.term then some (Node.mk n.code n.term n.value [] n.depth) else none

/-- Embedding of `Trie.HasKeysWithPrefix`: the walk succeeds at all. -/
def Trie.hasKeysWithPrefix {V : Type} (t : Trie V) (key : List Nat) : Bool :=
  (findNode t.root (parseTextToRunes key)).isSome


/-- Outcome of the walking loop of `ReplaceOrInsert`: a decode failure
(`return nil` before the terminal action), a fresh terminal (`pre == nil`),
or a pre-existing terminal node `pre`. -/
inductive InsOut (V : Type) : Type where
  | fail
  | fresh
  | found (pre : Node V)

/-- Embedding of the body of `ReplaceOrInsert` from the current node with the
remaining (undecoded) key bytes: walk or create child nodes one code point at
a time; abort with `fail` on `utf8.RuneError`, keeping nodes already created;
at the last code point either mutate the fresh terminal (`term = true`, the
value) or build the replacement node from the pre-existing terminal `pre`
(same code, children, depth, `term := pre.term`, new value) and put it in the
parent's map, returning `found pre`.  Only callers ever pass nonempty
remainders (the Go loop guard). -/
def insertGo {V : Type} (v : V) : Node V → List Nat → Node V × InsOut V
  | n, [] => (n, InsOut.fresh)
  | n, b :: s =>
    if (decodeRune (b :: s)).1 = runeError then (n, InsOut.fail)
    else
      let e := (decodeRune (b :: s)).1
      let s2 := (b :: s).drop (decodeRune (b :: s)).2
      match lookupChild n.children e with
      | some m =>
        if s2.isEmpty then
          (Node.mk n.code n.term n.value
            (setChild n.children e (Node.mk m.code m.term (some v) m.children m.depth))
            n.depth,
           InsOut.found m)
        else
          let r := insertGo v m s2
          (Node.mk n.code n.term n.value (setChild n.children e r.1) n.depth, r.2)
      | none =>
        if s2.isEmpty then
          (Node.mk n.code n.term n.value
            (setChild n.children e (Node.mk e true (some v) [] (n.depth + 1))) n.depth,
           InsOut.fresh)
        else
          let r := insertGo v (Node.mk e false none [] (n.depth + 1)) s2
          (Node.mk n.code n.term n.value (setChild n.children e r.1) n.depth, r.2)
termination_by _ s => s.length
decreasing_by
  all_goals exact length_drop_decodeRune _ (List.cons_ne_nil _ _)

/-- Embedding of `Trie.ReplaceOrInsert`: empty key and decode failure return
Go nil (`none`); a fresh terminal increments `size`; a pre-existing terminal
keeps `size` and returns the previous node. -/
def Trie.replaceOrInsert {V : Type} (t : Trie V) (key : List Nat) (v : V) :
    Trie V × Option (Node V) :=
  if key.isEmpty then (t, none)
  else
    match insertGo v t.root key with
    | (r, InsOut.fail) => ({ root := r, size := t.size }, none)
    | (r, InsOut.fresh) => ({ root := r, size := t.size + 1 }, none)
    | (r, InsOut.found pre) => ({ root := r, size := t.size }, some pre)

/-- Embedding of `Delete`'s walk along the decoded key path.  `none` models
the Go panic: when `findNode` returns nil the source dereferences it
(`node.term`) without a check.  Otherwise `some (n2, removed, del)`: `n2` is
the updated subtree, `removed` says the Go code deleted this node from its
parent's map (the leaf removal and the ancestor-pruning climb, re-expressed
on the recursion path: an ancestor is pruned when it is not terminating and
childless after its child's removal), and `del` is the Go return value
(`none` = nil = absent).  In the demotion branch the source's `del` aliases
the node whose `term` was just set to `false`, so the returned node carries
`term = false`.

Known divergence: the source's climb reads *stored* parent pointers, and
after a `ReplaceOrInsert` replacement a child's parent pointer still targets
the old, replaced node object, whose `term` flag no longer tracks the live
node (for example after insert "ab", insert "abc", re-insert "ab", delete
"ab", delete "abc", Go reads the stale `term = true`, stops pruning, and
leaves the demoted "ab" node non-terminating and childless).  This model
re-resolves ancestors on the current access path and therefore prunes them;
the two behaviors agree on every state in which no key replacement has
occurred, and on the panic, absent and demotion branches everywhere.  No
theorem in this file asserts pruning-dependent invariant preservation for
`Delete`. -/
def delWalk {V : Type} : Node V → List Nat → Option (Node V × Bool × Option (Node V))
  | n, [] =>
    if n.term then
      if n.children.isEmpty then some (n, true, some n)
      else
        let d := Node.mk n.code false n.value n.children n.depth
        some (d, false, some d)
    else some (n, false, none)
  | n, c :: rest =>
    match lookupChild n.children c with
    | none => none
    | some m =>
      match delWalk m rest with
      | none => none
      | some (m2, removed, del) =>
        if removed then
          let cs := removeChild n.children c
          if n.term then some (Node.mk n.code n.term n.value cs n.depth, false, del)
          else if cs.isEmpty then some (Node.mk n.code n.term n.value cs n.depth, true, del)
          else some (Node.mk n.code n.term n.value cs n.depth, false, del)
        else some (Node.mk n.code n.term n.value (setChild n.children c m2) n.depth, false, del)

/-- Embedding of `Trie.Delete`.  `none` is the nil-pointer panic (the missing
`findNode` nil check); `some (t2, none)` is "absent, nothing removed";
`some (t2, some d)` removes a key: `size` decrements and `d` is the returned
node.  The root is never removed even when the walk marks it prunable. -/
def Trie.delete {V : Type} (t : Trie V) (key : List Nat) :
    Option (Trie V × Option (Node V)) :=
  match delWalk t.root (parseTextToRunes key) with
  | none => none
  | some (r, _, some d) => some ({ root := r, size := t.size - 1 }, some d)
  | some (r, _, none) => some ({ root := r, size := t.size }, none)

/-- The code of a child found by a map read is below its enclosing node in
`sizeOf`; used for termination of the traversal. -/
theorem sizeOf_lookupChild {V : Type} (cs : List (Nat × Node V)) (x : Nat) (m : Node V)
    (h : lookupChild cs x = some m) : sizeOf m < sizeOf cs := by
  induction cs with
  | nil => simp [lookupChild] at h
  | cons p rest ih =>
    obtain ⟨c, m0⟩ := p
    simp only [lookupChild] at h
    by_cases hc : c = x
    · simp [hc] at h
      subst h
      simp
      omega
    · simp [hc] at h
      have := ih h
      simp
      omega

/-- A child reached by a map read is smaller than its node. -/
theorem sizeOf_child {V : Type} (n : Node V) (x : Nat) (m : Node V)
    (h : lookupChild n.children x = some m) : sizeOf m < sizeOf n := by
  obtain ⟨c, tb, v, cs, d⟩ := n
  simp only [Node.children] at h
  have := sizeOf_lookupChild cs x m h
  simp
  omega

/-- Embedding of `sort.Sort(ByRune(bs))`: ascending sort of the child codes
collected from the map. -/
def sortRunes (l : List Nat) : List Nat := List.insertionSort (· ≤ ·) l

/-- Helper for the traversal termination: a node's children list is smaller
than the node. -/
theorem sizeOf_children {V : Type} (n : Node V) : sizeOf n.children < sizeOf n := by
  obtain ⟨c, tb, v, cs, d⟩ := n
  simp [Node.children]
  omega

mutual

/-- Embedding of `preTraverse`: the list of `(key, value)` argument pairs
passed to the iterator `iter`, in call order.  A terminating node is visited
first; when `iter` returns `false` the current call returns — but, as in the
source, where the recursive calls discard the iterator's result, the
enumeration of the remaining siblings in every enclosing call continues.
The child loop (`preKids`) runs over the ascending sort of the collected map
keys and looks each one up, as the source does; the child's own `code` field
is appended to the rune prefix. -/
def preTraverse {V : Type} (iter : List Nat → Option V → Bool) (n : Node V) (pre : List Nat) :
    List (List Nat × Option V) :=
  if n.term then
    if iter (parseRunesToText pre) n.value then
      (parseRunesToText pre, n.value) ::
        preKids iter n.children (sortRunes (n.children.map Prod.fst)) pre
    else [(parseRunesToText pre, n.value)]
  else preKids iter n.children (sortRunes (n.children.map Prod.fst)) pre
termination_by (sizeOf n, 0)
decreasing_by
  all_goals exact Prod.Lex.left _ _ (sizeOf_children n)

/-- The child loop of `preTraverse`: for each code of the sorted list `bs`,
look the child up in the map and traverse it. -/
def preKids {V : Type} (iter : List Nat → Option V → Bool) (kids : List (Nat × Node V)) :
    List Nat → List Nat → List (List Nat × Option V)
  | [], _ => []
  | c :: bs, pre =>
    (match _h : lookupChild kids c with
     | some m => preTraverse iter m (pre ++ [m.code])
     | none => []) ++ preKids iter kids bs pre
termination_by bs _ => (sizeOf kids, bs.length)
decreasing_by
  · exact Prod.Lex.left _ _ (sizeOf_lookupChild kids c m _h)
  · exact Prod.Lex.right _ (Nat.lt_succ_self _)

end

/-- Embedding of `Trie.PrefixSearch`: decode the byte prefix, walk to its
node, and traverse; a failed walk yields no calls. -/
def Trie.prefixSearch {V : Type} (t : Trie V) (pre : List Nat)
    (iter : List Nat → Option V → Bool) : List (List Nat × Option V) :=
  match findNode t.root (parseTextToRunes pre) with
  | none => []
  | some n => preTraverse iter n (parseTextToRunes pre)

/-- Embedding of `Trie.Keys`: prefix search over the empty prefix with an
iterator that collects every key and always continues. -/
def Trie.keys {V : Type} (t : Trie V) : List (List Nat) :=
  (t.prefixSearch [] fun _ _ => true).map Prod.fst



/-- A concrete trie holding only the key "a" (byte 0x61), value 0. -/
def exTrieA : Trie Nat := ((newTrie Nat).replaceOrInsert [0x61] 0).1

/-- A concrete trie holding only the key "ab" (bytes 0x61 0x62), value 0. -/
def exTrieAB : Trie Nat := ((newTrie Nat).replaceOrInsert [0x61, 0x62] 0).1

/-- A concrete trie holding "a" (value 0) and "ab" (value 1). -/
def exTrieA_AB : Trie Nat := (exTrieA.replaceOrInsert [0x61, 0x62] 1).1

/-- A concrete trie holding "a" (value 0) and "b" (value 1). -/
def exTrieA_B : Trie Nat := (exTrieA.replaceOrInsert [0x62] 1).1

mutual

/-- The spec's structural invariant at one node: a node that is not
terminating has at least one child, and the same holds below. -/
def subOK {V : Type} : Node V → Bool
  | Node.mk _ tb _ cs _ => (tb || !cs.isEmpty) && kidsOK cs

/-- `subOK` for every node of a children map (the root itself is exempt, so
the trie-level invariant is `kidsOK` of the root's children). -/
def kidsOK {V : Type} : List (Nat × Node V) → Bool
  | [] => true
  | (_, m) :: rest => subOK m && kidsOK rest

end

/-- The spec's invariant over a whole trie: no non-terminating childless
node other than the root. -/
def pruneOK {V : Type} (t : Trie V) : Bool := kidsOK t.root.children

/-- No duplicate codes in a key list (Go map keys are unique). -/
def codesNodup : List Nat → Bool
  | [] => true
  | c :: rest => !rest.contains c && codesNodup rest

mutual

/-- Well-formedness a Go `map[rune]*Node` guarantees by construction: child
codes are unique, each entry's node carries the entry's code, recursively. -/
def nodeWF {V : Type} : Node V → Bool
  | Node.mk _ _ _ cs _ => codesNodup (cs.map Prod.fst) && entriesWF cs

/-- `nodeWF` plus code agreement for every entry of a children map. -/
def entriesWF {V : Type} : List (Nat × Node V) → Bool
  | [] => true
  | (c, m) :: rest => (m.code == c) && nodeWF m && entriesWF rest

end

mutual

/-- The rune paths of the terminating nodes below `n`, in the order
`preTraverse` reaches them with an iterator that always continues: the node
itself first, then the children by ascending sorted code. -/
def preKeys {V : Type} (n : Node V) (pre : List Nat) : List (List Nat) :=
  (if n.term then [pre] else []) ++
    preKeysKids n.children (sortRunes (n.children.map Prod.fst)) pre
termination_by (sizeOf n, 0)
decreasing_by
  all_goals exact Prod.Lex.left _ _ (sizeOf_children n)

/-- The child loop of `preKeys` over the sorted code list. -/
def preKeysKids {V : Type} (kids : List (Nat × Node V)) :
    List Nat → List Nat → List (List Nat)
  | [], _ => []
  | c :: bs, pre =>
    (match _h : lookupChild kids c with
     | some m => preKeys m (pre ++ [m.code])
     | none => []) ++ preKeysKids kids bs pre
termination_by bs _ => (sizeOf kids, bs.length)
decreasing_by
  · exact Prod.Lex.left _ _ (sizeOf_lookupChild kids c m _h)
  · exact Prod.Lex.right _ (Nat.lt_succ_self _)

end

/-- Trie states reachable from `NewTrie` through the two mutating
operations; a `Delete` call that panics produces no successor state. -/
inductive Reachable {V : Type} : Trie V → Prop where
  | base : Reachable (newTrie V)
  | ins (t : Trie V) (key : List Nat) (v : V) :
      Reachable t → Reachable (t.replaceOrInsert key v).1
  | del (t : Trie V) (key : List Nat) (r : Trie V × Option (Node V)) :
      Reachable t → t.delete key = some r → Reachable r.1

@[simp] theorem Node.code_mk {V : Type} (c : Nat) (tb : Bool) (v : Option V)
    (cs : List (Nat × Node V)) (d : Nat) : (Node.mk c tb v cs d).code = c := rfl

@[simp] theorem Node.term_mk {V : Type} (c : Nat) (tb : Bool) (v : Option V)
    (cs : List (Nat × Node V)) (d : Nat) : (Node.mk c tb v cs d).term = tb := rfl

@[simp] theorem Node.value_mk {V : Type} (c : Nat) (tb : Bool) (v : Option V)
    (cs : List (Nat × Node V)) (d : Nat) : (Node.mk c tb v cs d).value = v := rfl

@[simp] theorem Node.children_mk {V : Type} (c : Nat) (tb : Bool) (v : Option V)
    (cs : List (Nat × Node V)) (d : Nat) : (Node.mk c tb v cs d).children = cs := rfl

@[simp] theorem Node.depth_mk {V : Type} (c : Nat) (tb : Bool) (v : Option V)
    (cs : List (Nat × Node V)) (d : Nat) : (Node.mk c tb v cs d).depth = d := rfl

/-- Writing a child and reading the same code gives the written node. -/
theorem lookupChild_setChild_self {V : Type} (cs : List (Nat × Node V)) (x : Nat)
    (nd : Node V) : lookupChild (setChild cs x nd) x = some nd := by
  induction cs with
  | nil => simp [setChild, lookupChild]
  | cons p rest ih =>
    obtain ⟨c, m⟩ := p
    by_cases hc : c = x <;> simp [setChild, lookupChild, hc, ih]

/-- Writing a child does not change reads at other codes. -/
theorem lookupChild_setChild_ne {V : Type} (cs : List (Nat × Node V)) (x y : Nat)
    (nd : Node V) (h : y ≠ x) : lookupChild (setChild cs x nd) y = lookupChild cs y := by
  have hxy : x ≠ y := Ne.symm h
  induction cs with
  | nil => simp [setChild, lookupChild, hxy]
  | cons p rest ih =>
    obtain ⟨c, m⟩ := p
    by_cases hc : c = x
    · subst hc
      simp [setChild, lookupChild, hxy]
    · simp only [setChild, if_neg hc, lookupChild]
      by_cases hy : c = y <;> simp [hy, ih]

/-- A map write never empties the map. -/
theorem setChild_ne_nil {V : Type} (cs : List (Nat × Node V)) (x : Nat) (nd : Node V) :
    setChild cs x nd ≠ [] := by
  cases cs with
  | nil => simp [setChild]
  | cons p rest =>
    obtain ⟨c, m⟩ := p
    by_cases hc : c = x <;> simp [setChild, hc]

/-- Deleting a code then reading it misses. -/
theorem lookupChild_removeChild_self {V : Type} (cs : List (Nat × Node V)) (x : Nat) :
    lookupChild (removeChild cs x) x = none := by
  induction cs with
  | nil => simp [removeChild, lookupChild]
  | cons p rest ih =>
    obtain ⟨c, m⟩ := p
    by_cases hc : c = x
    · subst hc
      simpa [removeChild, List.filter_cons] using ih
    · have hb : ((c, m).1 != x) = true := by simp [hc]
      simp only [removeChild, List.filter_cons, hb, if_pos]
      simpa [lookupChild, hc, removeChild] using ih

/-- Deleting a code does not change reads at other codes. -/
theorem lookupChild_removeChild_ne {V : Type} (cs : List (Nat × Node V)) (x y : Nat)
    (h : y ≠ x) : lookupChild (removeChild cs x) y = lookupChild cs y := by
  induction cs with
  | nil => simp [removeChild, lookupChild]
  | cons p rest ih =>
    obtain ⟨c, m⟩ := p
    by_cases hc : c = x
    · subst hc
      have hcy : ¬ c = y := fun hh => h (by rw [hh.symm])
      simp only [removeChild, List.filter_cons] at ih ⊢
      simpa [lookupChild, hcy] using ih
    · have hb : ((c, m).1 != x) = true := by simp [hc]
      simp only [removeChild, List.filter_cons, hb, if_pos] at ih ⊢
      by_cases hy : c = y <;> simp [lookupChild, hy, ih]

/-- The rune path `p` reaches a terminating node below `n`: this is how a
stored key is observable through `findNode`. -/
def termPath {V : Type} (n : Node V) (p : List Nat) : Prop :=
  ∃ m, findNode n p = some m ∧ m.term = true

theorem termPath_nil {V : Type} (n : Node V) : termPath n [] ↔ n.term = true := by
  simp [termPath, findNode]

theorem termPath_cons {V : Type} (n : Node V) (c : Nat) (p : List Nat) :
    termPath n (c :: p) ↔
      ∃ m, lookupChild n.children c = some m ∧ termPath m p := by
  simp only [termPath, findNode]
  cases h : lookupChild n.children c <;> simp [h]


/-- C1: the claim states that `Delete` of a byte-string key whose decoded
path does not reach any node returns absent, leaves the trie unchanged and
never panics.  The source has no nil check after `findNode` (`node.term` is
read unconditionally), so on the one-key trie {"a"} deleting "b"
dereferences a nil pointer and panics; in the model `delete` returns `none`
(the panic), not an absent result. -/
theorem c1_delete_missing_node_panics : exTrieA.delete [0x62] = none := by
  simp [exTrieA, newTrie, Trie.replaceOrInsert, insertGo, decodeRune, runeError, isCont,
    lookupChild, setChild, List.isEmpty, Trie.delete, parseTextToRunes, decodeLoop,
    delWalk, findNode]

/-- C2: the claim states that inserting a valid non-empty key whose terminal
node exists but is not terminating marks it terminating, increments `size`,
and returns absent.  On the trie {"ab"}, inserting "a" hits the replacement
branch (`pre != nil`), which copies `term` from the old non-terminating node:
the call returns the previous node (not absent), `size` stays 1, and a
subsequent `Find("a")` still reports not-found. -/
theorem c2_insert_prefix_node_bug :
    (exTrieAB.replaceOrInsert [0x61] 1).2 ≠ none ∧
    (exTrieAB.replaceOrInsert [0x61] 1).1.size = exTrieAB.size ∧
    (exTrieAB.replaceOrInsert [0x61] 1).1.find [0x61] = none := by
  refine ⟨?_, ?_, ?_⟩ <;>
  simp [exTrieAB, newTrie, Trie.replaceOrInsert, insertGo, decodeRune, runeError, isCont,
    lookupChild, setChild, List.isEmpty, Trie.find, parseTextToRunes, decodeLoop, findNode]

/-- C7: the claim states the round trip `find (insert k v); find k = (v,
found)` for every trie, valid key and value.  It fails on the trie {"ab"}
with k = "a": the insertion takes the replacement branch, keeps the node
non-terminating (see C2), and `Find("a")` reports not-found instead of
`(7, found)`. -/
theorem c7_round_trip_fails :
    ((exTrieAB.replaceOrInsert [0x61] 7).1).find [0x61] = none := by
  simp [exTrieAB, newTrie, Trie.replaceOrInsert, insertGo, decodeRune, runeError, isCont,
    lookupChild, setChild, List.isEmpty, Trie.find, parseTextToRunes, decodeLoop, findNode]

/-- C3 counterexample: the claim states that `ReplaceOrInsert` of a key with
an invalid encoding leaves the node structure exactly as before — no
intermediate nodes created.  Inserting the bytes 0x61 0xFF into the empty
trie returns absent but the walk has already created the child node for
0x61: the root's children map is no longer empty. -/
theorem c3_counterexample :
    ((newTrie Nat).replaceOrInsert [0x61, 0xFF] 0).2 = none ∧
    ((newTrie Nat).replaceOrInsert [0x61, 0xFF] 0).1.root.children ≠ [] := by
  constructor <;>
  simp [newTrie, Trie.replaceOrInsert, insertGo, decodeRune, runeError, isCont,
    lookupChild, setChild, List.isEmpty]

/-- C4 counterexample: the claim states that a `false` from the visit
callback halts the whole traversal immediately, including remaining
siblings.  On the trie {"a": 0, "b": 1} a callback that always returns
`false` is nevertheless invoked twice: after the first `false` at "a", the
sibling "b" is still visited (the source discards the recursive calls'
outcome). -/
theorem c4_counterexample :
    exTrieA_B.prefixSearch [] (fun _ _ => false) =
      [([0x61], some 0), ([0x62], some 1)] := by
  simp [exTrieA_B, exTrieA, newTrie, Trie.replaceOrInsert, insertGo, decodeRune, runeError,
    isCont, lookupChild, setChild, List.isEmpty, Trie.prefixSearch, parseTextToRunes,
    decodeLoop, findNode, preTraverse, preKids, sortRunes, List.insertionSort,
    List.orderedInsert, parseRunesToText, encodeRune]

/-- C5 counterexample: the claim states that an undecodable byte string is
treated as "no match": `PrefixSearch` visits nothing and `HasKeysWithPrefix`
returns false, never behaving as if the input were the empty key.  On the
trie {"a": 0} with the invalid byte 0xFF, `HasKeysWithPrefix` returns true
and `PrefixSearch` enumerates the whole trie — exactly the empty-key
behavior (`parseTextToRunes` returns nil for both). -/
theorem c5_counterexample :
    exTrieA.hasKeysWithPrefix [0xFF] = true ∧
    exTrieA.prefixSearch [0xFF] (fun _ _ => true) = [([0x61], some 0)] := by
  constructor <;>
  simp [exTrieA, newTrie, Trie.replaceOrInsert, insertGo, decodeRune, runeError, isCont,
    lookupChild, setChild, List.isEmpty, Trie.hasKeysWithPrefix, Trie.prefixSearch,
    parseTextToRunes, decodeLoop, findNode, preTraverse, preKids, sortRunes,
    List.insertionSort, List.orderedInsert, parseRunesToText, encodeRune]

/-- C6 counterexample: the claim states that deleting a stored key whose
terminal node still has children returns the entry in its pre-demotion
state, with `terminating = true`.  On the trie {"a": 0, "ab": 1}, deleting
"a" returns the node `del` that aliases the demoted node: its terminating
flag reads `false`. -/
theorem c6_counterexample :
    ((exTrieA_AB.delete [0x61]).bind (fun r => r.2)).map Node.term = some false := by
  simp [exTrieA_AB, exTrieA, newTrie, Trie.replaceOrInsert, insertGo, decodeRune, runeError,
    isCont, lookupChild, setChild, removeChild, List.isEmpty, Trie.delete,
    parseTextToRunes, decodeLoop, delWalk, findNode]

/-- C9: the claim states that "every non-root node with `isTerminating =
false` has at least one child" holds in the empty trie and is preserved by
every public operation, so that no such node exists in any reachable state.
The code violates it: inserting the invalidly encoded key 0x61 0xFF into
the empty trie — a single reachable operation — creates a non-terminating
childless child of the root before the decode error aborts the insertion,
and that node is never cleaned up.  (A second, independent violation lives
outside this functional model: after a key replacement, children keep
parent pointers into the replaced node object, whose `term` flag is frozen,
so `Delete`'s pruning climb can stop early and leave a demoted childless
node in the tree — see the comment on `delWalk`.) -/
theorem c9_invariant_violated :
    Reachable ((newTrie Nat).replaceOrInsert [0x61, 0xFF] 0).1 ∧
    pruneOK ((newTrie Nat).replaceOrInsert [0x61, 0xFF] 0).1 = false := by
  constructor
  · exact Reachable.ins _ _ _ Reachable.base
  · simp [newTrie, Trie.replaceOrInsert, insertGo, decodeRune, runeError, isCont,
      lookupChild, setChild, List.isEmpty, pruneOK, kidsOK, subOK]

/-- A freshly created intermediate node has no terminating path below it. -/
theorem termPath_fresh {V : Type} (e d : Nat) (p : List Nat) :
    ¬ termPath (Node.mk e false none ([] : List (Nat × Node V)) d) p := by
  cases p with
  | nil => simp [termPath_nil]
  | cons c rest => simp [termPath_cons, lookupChild]

/-- Replacing the child at a present code by a node with the same
terminating paths does not change the terminating paths of the parent. -/
theorem termPath_setChild_found {V : Type} (n : Node V) (e : Nat) (m m2 : Node V)
    (hl : lookupChild n.children e = some m)
    (hiff : ∀ q, termPath m2 q ↔ termPath m q) (p : List Nat) :
    termPath (Node.mk n.code n.term n.value (setChild n.children e m2) n.depth) p ↔
      termPath n p := by
  cases p with
  | nil => simp [termPath_nil]
  | cons c rest =>
    by_cases hc : c = e
    · subst hc
      simp [termPath_cons, lookupChild_setChild_self, hl, hiff]
    · simp [termPath_cons, lookupChild_setChild_ne _ _ _ _ hc]

/-- Adding at an absent code a child with no terminating paths does not
change the terminating paths of the parent. -/
theorem termPath_setChild_new {V : Type} (n : Node V) (e : Nat) (m2 : Node V)
    (hl : lookupChild n.children e = none)
    (hdead : ∀ q, ¬ termPath m2 q) (p : List Nat) :
    termPath (Node.mk n.code n.term n.value (setChild n.children e m2) n.depth) p ↔
      termPath n p := by
  cases p with
  | nil => simp [termPath_nil]
  | cons c rest =>
    by_cases hc : c = e
    · subst hc
      simp [termPath_cons, lookupChild_setChild_self, hl, hdead]
    · simp [termPath_cons, lookupChild_setChild_ne _ _ _ _ hc]

/-- The walking loop of `ReplaceOrInsert` on a key whose decoding fails:
the outcome is `fail` (Go returns nil before the terminal action) and no
terminating path is created or destroyed — although intermediate
non-terminating nodes may well have been added. -/
theorem insertGo_fail {V : Type} (v : V) :
    ∀ (N : Nat) (s : List Nat), s.length ≤ N → decodeLoop s = none →
      ∀ (n : Node V),
        (insertGo v n s).2 = InsOut.fail ∧
        ∀ p, termPath (insertGo v n s).1 p ↔ termPath n p := by
  intro N
  induction N with
  | zero =>
    intro s hs h n
    match s with
    | [] => simp [decodeLoop] at h
  | succ N ih =>
    intro s hs h n
    match s with
    | [] => simp [decodeLoop] at h
    | b :: s0 =>
      by_cases he : (decodeRune (b :: s0)).1 = runeError
      · refine ⟨by simp [insertGo, he], fun p => by simp [insertGo, he]⟩
      · have h2 : decodeLoop ((b :: s0).drop (decodeRune (b :: s0)).2) = none := by
          rw [decodeLoop] at h
          simp only [he, if_false] at h
          cases hd : decodeLoop ((b :: s0).drop (decodeRune (b :: s0)).2) with
          | some t => rw [hd] at h; simp at h
          | none => rfl
        have hlen : ((b :: s0).drop (decodeRune (b :: s0)).2).length ≤ N := by
          have := length_drop_decodeRune (b :: s0) (by simp)
          simp only [List.length_cons] at this hs
          omega
        have hs2ne : ((b :: s0).drop (decodeRune (b :: s0)).2).isEmpty = false := by
          cases hdd : (b :: s0).drop (decodeRune (b :: s0)).2 with
          | nil => rw [hdd] at h2; simp [decodeLoop] at h2
          | cons x xs => simp
        cases hl : lookupChild n.children (decodeRune (b :: s0)).1 with
        | some m =>
          obtain ⟨ih1, ih2⟩ := ih _ hlen h2 m
          constructor
          · simp [insertGo, he, hl, hs2ne, ih1]
          · intro p
            have := termPath_setChild_found n (decodeRune (b :: s0)).1 m _ hl ih2 p
            simpa [insertGo, he, hl, hs2ne] using this
        | none =>
          obtain ⟨ih1, ih2⟩ :=
            ih _ hlen h2 (Node.mk (decodeRune (b :: s0)).1 false none [] (n.depth + 1))
          constructor
          · simp [insertGo, he, hl, hs2ne, ih1]
          · intro p
            have hdead : ∀ q,
                ¬ termPath (insertGo v
                  (Node.mk (decodeRune (b :: s0)).1 false none [] (n.depth + 1))
                  ((b :: s0).drop (decodeRune (b :: s0)).2)).1 q := by
              intro q hq
              exact termPath_fresh _ _ q ((ih2 q).mp hq)
            have := termPath_setChild_new n (decodeRune (b :: s0)).1 _ hl hdead p
            simpa [insertGo, he, hl, hs2ne] using this

/-- C3 (amended): `ReplaceOrInsert` of a key containing an invalid encoding
returns absent and stores nothing: `size` and the set of stored keys (the
terminating paths) are exactly as before.  The node structure, however, is
not untouched: the walk creates the intermediate non-terminating nodes for
the valid code points preceding the invalid position and leaves them in the
trie (see the counterexample). -/
theorem c3_amended_insert_invalid {V : Type} (t : Trie V) (key : List Nat) (v : V)
    (h : decodeLoop key = none) :
    (t.replaceOrInsert key v).2 = none ∧
    (t.replaceOrInsert key v).1.size = t.size ∧
    ∀ p, termPath (t.replaceOrInsert key v).1.root p ↔ termPath t.root p := by
  have hne : key.isEmpty = false := by
    cases key with
    | nil => simp [decodeLoop] at h
    | cons b s0 => simp
  obtain ⟨h1, h2⟩ := insertGo_fail v key.length key le_rfl h t.root
  have hins : insertGo v t.root key = ((insertGo v t.root key).1, InsOut.fail) := by
    rw [← h1]
  have e1 : t.replaceOrInsert key v =
      ({ root := (insertGo v t.root key).1, size := t.size }, none) := by
    rw [Trie.replaceOrInsert, hins]
    simp [hne]
  rw [e1]
  exact ⟨rfl, rfl, h2⟩

/-- Witness for C3 (amended) at the concrete input of the counterexample. -/
theorem c3_witness :
    ((newTrie Nat).replaceOrInsert [0x61, 0xFF] 0).2 = none ∧
    ((newTrie Nat).replaceOrInsert [0x61, 0xFF] 0).1.size = (newTrie Nat).size ∧
    ∀ p, termPath ((newTrie Nat).replaceOrInsert [0x61, 0xFF] 0).1.root p ↔
      termPath (newTrie Nat).root p :=
  c3_amended_insert_invalid (newTrie Nat) [0x61, 0xFF] 0
    (by simp [decodeLoop, decodeRune, runeError, isCont])

/-- C4 (amended): a `false` from the visit callback is local to the current
subtree: the node's own visit is emitted and its descendants are skipped,
but the child loop of every enclosing node continues with the remaining
siblings — the trace of a code list is the trace of its head followed by
the trace of the rest, whatever the iterator returned inside the head's
subtree. -/
theorem c4_amended_stop_is_local {V : Type} (iter : List Nat → Option V → Bool)
    (n : Node V) (pre : List Nat) (kids : List (Nat × Node V)) (c : Nat)
    (bs q : List Nat) :
    (n.term = true → iter (parseRunesToText pre) n.value = false →
      preTraverse iter n pre = [(parseRunesToText pre, n.value)]) ∧
    preKids iter kids (c :: bs) q = preKids iter kids [c] q ++ preKids iter kids bs q := by
  constructor
  · intro h1 h2
    rw [preTraverse]
    simp [h1, h2]
  · rw [preKids]
    conv_rhs => rw [preKids, preKids]
    simp

/-- Witness for C4 (amended) on the two-key trie of the counterexample. -/
theorem c4_witness :
    (((exTrieA_B.root).term = true →
      (fun _ _ => false) (parseRunesToText []) (exTrieA_B.root).value = false →
      preTraverse (fun _ _ => false) exTrieA_B.root [] =
        [(parseRunesToText [], (exTrieA_B.root).value)]) ∧
    preKids (fun _ _ => false) exTrieA_B.root.children [0x61, 0x62] [] =
      preKids (fun _ _ => false) exTrieA_B.root.children [0x61] [] ++
        preKids (fun _ _ => false) exTrieA_B.root.children [0x62] []) :=
  c4_amended_stop_is_local (fun _ _ => false) exTrieA_B.root [] exTrieA_B.root.children
    0x61 [0x62] []

/-- C5 (amended): a non-empty byte string that does not decode validly is
treated by the read operations exactly as the empty key (`parseTextToRunes`
returns nil for both): `Find` reports not-found as long as the root is not
terminating (it never is in any reachable state), but `HasKeysWithPrefix`
returns true and `PrefixSearch` behaves as a search for the empty prefix,
enumerating the entire trie. -/
theorem c5_amended_invalid_key_reads {V : Type} (t : Trie V) (key : List Nat)
    (f : List Nat → Option V → Bool) (hk : decodeLoop key = none) :
    (t.root.term = false → t.find key = none) ∧
    t.hasKeysWithPrefix key = true ∧
    t.prefixSearch key f = t.prefixSearch [] f := by
  have hp : parseTextToRunes key = [] := by simp [parseTextToRunes, hk]
  have hp0 : parseTextToRunes ([] : List Nat) = [] := by simp [parseTextToRunes, decodeLoop]
  refine ⟨?_, ?_, ?_⟩
  · intro hr
    simp [Trie.find, hp, findNode, hr]
  · simp [Trie.hasKeysWithPrefix, hp, findNode]
  · simp [Trie.prefixSearch, hp, hp0]

/-- Witness for C5 (amended) at the counterexample's input. -/
theorem c5_witness :
    (exTrieA.root.term = false → exTrieA.find [0xFF] = none) ∧
    exTrieA.hasKeysWithPrefix [0xFF] = true ∧
    exTrieA.prefixSearch [0xFF] (fun _ _ => true) =
      exTrieA.prefixSearch [] (fun _ _ => true) :=
  c5_amended_invalid_key_reads exTrieA [0xFF] (fun _ _ => true)
    (by simp [decodeLoop, decodeRune, runeError])

/-- `Delete`'s walk on a stored key whose terminal node has children: the
node is demoted in place, nothing is removed from any map, and the returned
node is the demoted one. -/
theorem delWalk_demote {V : Type} (p : List Nat) :
    ∀ (n m : Node V), findNode n p = some m → m.term = true → m.children ≠ [] →
      ∃ n2, delWalk n p =
        some (n2, false, some (Node.mk m.code false m.value m.children m.depth)) := by
  induction p with
  | nil =>
    intro n m h1 h2 h3
    simp [findNode] at h1
    subst h1
    have hne : n.children.isEmpty = false := by
      cases hc : n.children with
      | nil => exact absurd hc h3
      | cons a l => simp
    exact ⟨Node.mk n.code false n.value n.children n.depth, by simp [delWalk, h2, hne]⟩
  | cons c rest ih =>
    intro n m h1 h2 h3
    simp only [findNode] at h1
    cases hl : lookupChild n.children c with
    | none => rw [hl] at h1; simp at h1
    | some k =>
      rw [hl] at h1
      obtain ⟨n2, hw⟩ := ih k m h1 h2 h3
      refine ⟨Node.mk n.code n.term n.value (setChild n.children c n2) n.depth, ?_⟩
      simp [delWalk, hl, hw]

/-- C6 (amended): deleting a stored key whose terminal node still has
children removes the entry (`size` decrements, the node is kept, demoted to
non-terminating) and returns the live demoted node: same code, value,
children and depth as before, but with `terminating = false` — the source's
return value aliases the node whose flag it has just cleared, not a
pre-demotion snapshot. -/
theorem c6_amended_delete_returns_demoted {V : Type} (t : Trie V) (key : List Nat)
    (n : Node V) (h1 : findNode t.root (parseTextToRunes key) = some n)
    (h2 : n.term = true) (h3 : n.children ≠ []) :
    ∃ r : Trie V,
      t.delete key =
        some (r, some (Node.mk n.code false n.value n.children n.depth)) ∧
      r.size = t.size - 1 := by
  obtain ⟨n2, hw⟩ := delWalk_demote (parseTextToRunes key) t.root n h1 h2 h3
  refine ⟨{ root := n2, size := t.size - 1 }, ?_, rfl⟩
  simp [Trie.delete, hw]

/-- Witness for C6 (amended) on the trie {"a", "ab"}. -/
theorem c6_witness :
    ∃ r : Trie Nat,
      exTrieA_AB.delete [0x61] =
        some (r, some (Node.mk 0x61 false (some 0)
          [(0x62, Node.mk 0x62 true (some 1) [] 2)] 1)) ∧
      r.size = exTrieA_AB.size - 1 := by
  have h := c6_amended_delete_returns_demoted exTrieA_AB [0x61]
    (Node.mk 0x61 true (some 0) [(0x62, Node.mk 0x62 true (some 1) [] 2)] 1)
    (by simp [exTrieA_AB, exTrieA, newTrie, Trie.replaceOrInsert, insertGo, decodeRune,
      runeError, isCont, lookupChild, setChild, List.isEmpty, parseTextToRunes,
      decodeLoop, findNode])
    (by simp) (by simp)
  simpa using h


/-- A well-formed decoding that contains the error value must have met it as
a decoded code point, and the source's loop — which compares only the value,
not the size — then fails. -/
theorem decodeLoop_of_utf8Decode_runeError :
    ∀ (N : Nat) (s : List Nat), s.length ≤ N →
      ∀ rs, utf8Decode s = some rs → runeError ∈ rs → decodeLoop s = none := by
  intro N
  induction N with
  | zero =>
    intro s hs rs h1 h2
    match s with
    | [] =>
      simp [utf8Decode] at h1
      subst h1
      simp at h2
  | succ N ih =>
    intro s hs rs h1 h2
    match s with
    | [] =>
      simp [utf8Decode] at h1
      subst h1
      simp at h2
    | b :: s0 =>
      by_cases he : (decodeRune (b :: s0)).1 = runeError
      · simp [decodeLoop, he]
      · rw [utf8Decode] at h1
        have hc : ¬ ((decodeRune (b :: s0)).1 = runeError ∧ (decodeRune (b :: s0)).2 ≤ 1) := by
          intro hh
          exact he hh.1
        rw [if_neg hc] at h1
        cases hd : utf8Decode ((b :: s0).drop (decodeRune (b :: s0)).2) with
        | none => rw [hd] at h1; simp at h1
        | some t =>
          rw [hd] at h1
          simp only [Option.some.injEq] at h1
          subst h1
          have h2t : runeError ∈ t := by
            rcases List.mem_cons.mp h2 with h | h
            · exact absurd h.symm he
            · exact h
          have hlen : ((b :: s0).drop (decodeRune (b :: s0)).2).length ≤ N := by
            have := length_drop_decodeRune (b :: s0) (by simp)
            simp only [List.length_cons] at this hs
            omega
          have hrec := ih _ hlen t hd h2t
          rw [decodeLoop, if_neg he, hrec]

/-- C10: a byte-string key that is valid UTF-8 but contains the replacement
character U+FFFD (bytes EF BF BD) is treated as invalid, because the source
compares the decoded value against `utf8.RuneError` without inspecting the
decoded size: `ReplaceOrInsert` returns absent without storing the key, and
`Find` on it reports not-found (the conflated empty decoding lands on the
root, which is not terminating in any reachable trie). -/
theorem c10_replacement_char_rejected {V : Type} (t : Trie V) (v : V)
    (key rs : List Nat) (h1 : utf8Decode key = some rs) (h2 : runeError ∈ rs)
    (h3 : t.root.term = false) :
    (t.replaceOrInsert key v).2 = none ∧ t.find key = none := by
  have hdl : decodeLoop key = none :=
    decodeLoop_of_utf8Decode_runeError key.length key le_rfl rs h1 h2
  have hne : key.isEmpty = false := by
    cases key with
    | nil => simp [decodeLoop] at hdl
    | cons b s0 => simp
  obtain ⟨hf, -⟩ := insertGo_fail v key.length key le_rfl hdl t.root
  have hins : insertGo v t.root key = ((insertGo v t.root key).1, InsOut.fail) := by
    rw [← hf]
  constructor
  · rw [Trie.replaceOrInsert, hins]
    simp [hne]
  · have hp : parseTextToRunes key = [] := by simp [parseTextToRunes, hdl]
    simp [Trie.find, hp, findNode, h3]

/-- Witness for C10: the single-code-point key EF BF BD (U+FFFD itself) on
the one-key trie {"a"}. -/
theorem c10_witness :
    ((exTrieA.replaceOrInsert [0xEF, 0xBF, 0xBD] 5).2 = none ∧
      exTrieA.find [0xEF, 0xBF, 0xBD] = none) :=
  c10_replacement_char_rejected exTrieA 5 [0xEF, 0xBF, 0xBD] [runeError]
    (by simp [utf8Decode, decodeRune, runeError, isCont])
    (by simp)
    (by simp [exTrieA, newTrie, Trie.replaceOrInsert, insertGo, decodeRune, runeError,
      isCont, lookupChild, setChild, List.isEmpty])


/-- A node's `sizeOf` is positive (used to discharge the base case of
size-bounded inductions). -/
theorem sizeOf_node_pos {V : Type} (n : Node V) : 1 ≤ sizeOf n := by
  cases n
  simp
  omega

/-- Strict lexicographic order: a list precedes any of its proper
extensions. -/
theorem lex_append_cons (p : List Nat) (c : Nat) (u : List Nat) :
    List.Lex (· < ·) p (p ++ c :: u) := by
  induction p with
  | nil => exact List.Lex.nil
  | cons a q ih => exact List.Lex.cons ih

/-- Strict lexicographic order: after a common front, the smaller head code
decides. -/
theorem lex_append_lt (p : List Nat) (c c2 : Nat) (h : c < c2) (u v : List Nat) :
    List.Lex (· < ·) (p ++ c :: u) (p ++ c2 :: v) := by
  induction p with
  | nil => exact List.Lex.rel h
  | cons a q ih => exact List.Lex.cons ih

theorem codesNodup_iff (l : List Nat) : codesNodup l = true ↔ l.Nodup := by
  induction l with
  | nil => simp [codesNodup]
  | cons c rest ih =>
    simp [codesNodup, ih, List.elem_iff]

theorem sortRunes_perm (l : List Nat) : (sortRunes l).Perm l :=
  List.perm_insertionSort _ l

theorem sortRunes_sorted (l : List Nat) : List.Pairwise (· ≤ ·) (sortRunes l) :=
  List.sorted_insertionSort _ l

/-- On duplicate-free code lists the sort used by the traversal is strictly
ascending. -/
theorem sortRunes_pairwise_lt (l : List Nat) (h : l.Nodup) :
    List.Pairwise (· < ·) (sortRunes l) := by
  have hs : List.Pairwise (· ≤ ·) (sortRunes l) := sortRunes_sorted l
  have hn : (sortRunes l).Nodup := ((sortRunes_perm l).nodup_iff).mpr h
  exact (hs.and hn).imp fun hab => lt_of_le_of_ne hab.1 hab.2

theorem mem_sortRunes (l : List Nat) (c : Nat) : c ∈ sortRunes l ↔ c ∈ l :=
  (sortRunes_perm l).mem_iff

/-- A code is readable precisely when it occurs among the map keys. -/
theorem lookupChild_isSome_iff {V : Type} (cs : List (Nat × Node V)) (x : Nat) :
    (∃ m, lookupChild cs x = some m) ↔ x ∈ cs.map Prod.fst := by
  induction cs with
  | nil => simp [lookupChild]
  | cons p rest ih =>
    obtain ⟨c, m⟩ := p
    simp only [lookupChild, List.map_cons, List.mem_cons]
    by_cases hc : c = x
    · subst hc
      simp
    · have hcx : ¬ x = c := fun hh => hc hh.symm
      simp [hc, hcx, ih]

/-- Writing at a present code leaves the key list unchanged. -/
theorem mapFst_setChild_found {V : Type} (cs : List (Nat × Node V)) (x : Nat)
    (nd m : Node V) (h : lookupChild cs x = some m) :
    (setChild cs x nd).map Prod.fst = cs.map Prod.fst := by
  induction cs with
  | nil => simp [lookupChild] at h
  | cons p rest ih =>
    obtain ⟨c, k⟩ := p
    by_cases hc : c = x
    · subst hc
      simp [setChild]
    · simp only [lookupChild, if_neg hc] at h
      simp [setChild, hc, ih h]

/-- Writing at an absent code appends the new key. -/
theorem mapFst_setChild_new {V : Type} (cs : List (Nat × Node V)) (x : Nat)
    (nd : Node V) (h : lookupChild cs x = none) :
    (setChild cs x nd).map Prod.fst = cs.map Prod.fst ++ [x] := by
  induction cs with
  | nil => simp [setChild]
  | cons p rest ih =>
    obtain ⟨c, k⟩ := p
    by_cases hc : c = x
    · subst hc
      simp [lookupChild] at h
    · simp only [lookupChild, if_neg hc] at h
      simp [setChild, hc, ih h]

/-- The deleted code's entries are gone from the key list; the rest keeps
its relative order (a sublist). -/
theorem mapFst_removeChild_sublist {V : Type} (cs : List (Nat × Node V)) (x : Nat) :
    ((removeChild cs x).map Prod.fst).Sublist (cs.map Prod.fst) :=
  List.Sublist.map _ (List.filter_sublist cs)

theorem nodeWF_eq {V : Type} (n : Node V) :
    nodeWF n = (codesNodup (n.children.map Prod.fst) && entriesWF n.children) := by
  cases n
  simp [nodeWF]

/-- Nodes read out of a well-formed children map are well formed and carry
the code they are filed under. -/
theorem entriesWF_lookup {V : Type} (cs : List (Nat × Node V)) (x : Nat) (m : Node V)
    (he : entriesWF cs = true) (hl : lookupChild cs x = some m) :
    nodeWF m = true ∧ m.code = x := by
  induction cs with
  | nil => simp [lookupChild] at hl
  | cons p rest ih =>
    obtain ⟨c, k⟩ := p
    simp only [entriesWF, Bool.and_eq_true, beq_iff_eq] at he
    simp only [lookupChild] at hl
    by_cases hc : c = x
    · rw [if_pos hc] at hl
      cases hl
      exact ⟨he.1.2, hc ▸ he.1.1⟩
    · rw [if_neg hc] at hl
      exact ih he.2 hl

theorem entriesWF_setChild {V : Type} (cs : List (Nat × Node V)) (x : Nat)
    (nd : Node V) (he : entriesWF cs = true) (hnd : nodeWF nd = true)
    (hcode : nd.code = x) : entriesWF (setChild cs x nd) = true := by
  induction cs with
  | nil => simp [setChild, entriesWF, hnd, hcode]
  | cons p rest ih =>
    obtain ⟨c, k⟩ := p
    simp only [entriesWF, Bool.and_eq_true, beq_iff_eq] at he
    by_cases hc : c = x
    · simp [setChild, hc, entriesWF, hnd, hcode, he.2]
    · simp only [setChild, if_neg hc, entriesWF, Bool.and_eq_true, beq_iff_eq]
      exact ⟨⟨he.1.1, he.1.2⟩, ih he.2⟩

theorem entriesWF_removeChild {V : Type} (cs : List (Nat × Node V)) (x : Nat)
    (he : entriesWF cs = true) : entriesWF (removeChild cs x) = true := by
  induction cs with
  | nil => simp [removeChild, entriesWF]
  | cons p rest ih =>
    obtain ⟨c, k⟩ := p
    simp only [entriesWF, Bool.and_eq_true, beq_iff_eq] at he
    by_cases hc : c = x
    · subst hc
      simpa [removeChild, List.filter_cons] using ih he.2
    · have hb : ((c, k).1 != x) = true := by simp [hc]
      simp only [removeChild, List.filter_cons, hb, if_pos]
      simp only [entriesWF, Bool.and_eq_true, beq_iff_eq]
      exact ⟨⟨he.1.1, he.1.2⟩, by simpa [removeChild] using ih he.2⟩


theorem preKeysKids_nil {V : Type} (kids : List (Nat × Node V)) (pre : List Nat) :
    preKeysKids kids [] pre = [] := by
  rw [preKeysKids]

theorem preKeysKids_cons_some {V : Type} (kids : List (Nat × Node V)) (c : Nat)
    (m : Node V) (bs pre : List Nat) (hl : lookupChild kids c = some m) :
    preKeysKids kids (c :: bs) pre =
      preKeys m (pre ++ [m.code]) ++ preKeysKids kids bs pre := by
  rw [preKeysKids]
  congr 1
  split
  · rename_i m2 heq
    rw [hl] at heq
    cases heq
    rfl
  · rename_i heq
    rw [hl] at heq
    cases heq

theorem preKeysKids_cons_none {V : Type} (kids : List (Nat × Node V)) (c : Nat)
    (bs pre : List Nat) (hl : lookupChild kids c = none) :
    preKeysKids kids (c :: bs) pre = preKeysKids kids bs pre := by
  rw [preKeysKids]
  split
  · rename_i m2 heq
    rw [hl] at heq
    cases heq
  · rename_i heq
    simp

theorem preKeys_eq {V : Type} (n : Node V) (pre : List Nat) :
    preKeys n pre = (if n.term then [pre] else []) ++
      preKeysKids n.children (sortRunes (n.children.map Prod.fst)) pre := by
  rw [preKeys]

/-- The child loop of the enumeration, over any strictly ascending code
list: its output is lexicographically sorted and consists exactly of the
extensions of `pre` through a listed code to a terminating path. -/
theorem preKeysKids_enum {V : Type} (kids : List (Nat × Node V)) (pre : List Nat)
    (hcode : ∀ c m, lookupChild kids c = some m → m.code = c) :
    ∀ bs : List Nat, List.Pairwise (· < ·) bs →
      (∀ c m, c ∈ bs → lookupChild kids c = some m →
        List.Pairwise (List.Lex (· < ·)) (preKeys m (pre ++ [c])) ∧
        ∀ p, p ∈ preKeys m (pre ++ [c]) ↔ ∃ s, p = pre ++ c :: s ∧ termPath m s) →
      List.Pairwise (List.Lex (· < ·)) (preKeysKids kids bs pre) ∧
      ∀ p, p ∈ preKeysKids kids bs pre ↔
        ∃ c, c ∈ bs ∧ ∃ m, lookupChild kids c = some m ∧
          ∃ s, p = pre ++ c :: s ∧ termPath m s := by
  intro bs
  induction bs with
  | nil =>
    intro _ _
    exact ⟨by simp [preKeysKids_nil], by simp [preKeysKids_nil]⟩
  | cons c bs ih =>
    intro hp hprops
    have hpt : List.Pairwise (· < ·) bs := hp.of_cons
    have hlt : ∀ c2 ∈ bs, c < c2 := (List.pairwise_cons.mp hp).1
    obtain ⟨ihp, ihm⟩ := ih hpt fun c2 m hc2 hl => hprops c2 m (List.mem_cons_of_mem _ hc2) hl
    cases hl : lookupChild kids c with
    | none =>
      rw [preKeysKids_cons_none kids c bs pre hl]
      refine ⟨ihp, fun p => ?_⟩
      rw [ihm]
      constructor
      · rintro ⟨c2, hc2, rest⟩
        exact ⟨c2, List.mem_cons_of_mem _ hc2, rest⟩
      · rintro ⟨c2, hc2, m, hlm, rest⟩
        rcases List.mem_cons.mp hc2 with h | h
        · subst h
          rw [hl] at hlm
          cases hlm
        · exact ⟨c2, h, m, hlm, rest⟩
    | some m =>
      have hmc : m.code = c := hcode c m hl
      obtain ⟨hbp, hbm⟩ := hprops c m (List.mem_cons_self _ _) hl
      rw [preKeysKids_cons_some kids c m bs pre hl, hmc]
      constructor
      · rw [List.pairwise_append]
        refine ⟨hbp, ihp, ?_⟩
        intro x hx y hy
        obtain ⟨s, hxs, -⟩ := (hbm x).mp hx
        obtain ⟨c2, hc2, m2, hlm2, s2, hys, -⟩ := (ihm y).mp hy
        subst hxs
        subst hys
        exact lex_append_lt pre c c2 (hlt c2 hc2) s s2
      · intro p
        rw [List.mem_append, hbm, ihm]
        constructor
        · rintro (⟨s, hp1, hp2⟩ | ⟨c2, hc2, m2, hlm2, s2, h1, h2⟩)
          · exact ⟨c, List.mem_cons_self _ _, m, hl, s, hp1, hp2⟩
          · exact ⟨c2, List.mem_cons_of_mem _ hc2, m2, hlm2, s2, h1, h2⟩
        · rintro ⟨c2, hc2, m2, hlm2, s2, h1, h2⟩
          rcases List.mem_cons.mp hc2 with h | h
          · subst h
            rw [hl] at hlm2
            cases hlm2
            exact Or.inl ⟨s2, h1, h2⟩
          · exact Or.inr ⟨c2, h, m2, hlm2, s2, h1, h2⟩

/-- The enumeration below a well-formed node is lexicographically strictly
sorted and lists exactly the extensions of `pre` by the terminating paths
below the node. -/
theorem preKeys_main {V : Type} :
    ∀ (N : Nat) (n : Node V), sizeOf n ≤ N → nodeWF n = true → ∀ pre,
      List.Pairwise (List.Lex (· < ·)) (preKeys n pre) ∧
      ∀ p, p ∈ preKeys n pre ↔ ∃ s, p = pre ++ s ∧ termPath n s := by
  intro N
  induction N with
  | zero =>
    intro n hsz
    exact absurd hsz (by have := sizeOf_node_pos n; omega)
  | succ N ih =>
    intro n hsz hwf pre
    have hwf2 := hwf
    rw [nodeWF_eq, Bool.and_eq_true] at hwf2
    have hnodup : (n.children.map Prod.fst).Nodup := (codesNodup_iff _).mp hwf2.1
    have hent : entriesWF n.children = true := hwf2.2
    have hcode : ∀ c m, lookupChild n.children c = some m → m.code = c :=
      fun c m hl => (entriesWF_lookup _ _ _ hent hl).2
    have hbs : List.Pairwise (· < ·) (sortRunes (n.children.map Prod.fst)) :=
      sortRunes_pairwise_lt _ hnodup
    have hprops : ∀ c m, c ∈ sortRunes (n.children.map Prod.fst) →
        lookupChild n.children c = some m →
        List.Pairwise (List.Lex (· < ·)) (preKeys m (pre ++ [c])) ∧
        ∀ p, p ∈ preKeys m (pre ++ [c]) ↔ ∃ s, p = pre ++ c :: s ∧ termPath m s := by
      intro c m hcb hl
      have hszm : sizeOf m ≤ N := by
        have h1 := sizeOf_lookupChild n.children c m hl
        have h2 := sizeOf_children n
        omega
      have hwfm : nodeWF m = true := (entriesWF_lookup _ _ _ hent hl).1
      obtain ⟨hmp, hmm⟩ := ih m hszm hwfm (pre ++ [c])
      refine ⟨hmp, fun p => ?_⟩
      rw [hmm]
      constructor
      · rintro ⟨s, h1, h2⟩
        exact ⟨s, by simpa using h1, h2⟩
      · rintro ⟨s, h1, h2⟩
        exact ⟨s, by simpa using h1, h2⟩
    obtain ⟨hkp, hkm⟩ := preKeysKids_enum n.children pre hcode _ hbs hprops
    rw [preKeys_eq]
    constructor
    · rw [List.pairwise_append]
      refine ⟨?_, hkp, ?_⟩
      · cases ht : n.term <;> simp
      · intro x hx y hy
        have hxp : x = pre := by
          cases ht : n.term with
          | true =>
            rw [ht] at hx
            simpa using hx
          | false =>
            rw [ht] at hx
            simp at hx
        subst hxp
        obtain ⟨c, -, m, -, s, hys, -⟩ := (hkm y).mp hy
        subst hys
        exact lex_append_cons x c s
    · intro p
      rw [List.mem_append, hkm]
      constructor
      · rintro (hp | ⟨c, hc, m, hlm, s, h1, h2⟩)
        · cases ht : n.term with
          | true =>
            rw [ht] at hp
            simp at hp
            subst hp
            exact ⟨[], by simp, (termPath_nil n).mpr ht⟩
          | false =>
            rw [ht] at hp
            simp at hp
        · refine ⟨c :: s, by simpa using h1, ?_⟩
          rw [termPath_cons]
          exact ⟨m, hlm, h2⟩
      · rintro ⟨s, h1, h2⟩
        cases s with
        | nil =>
          left
          have ht := (termPath_nil n).mp h2
          rw [ht]
          simpa using h1
        | cons c s2 =>
          right
          rw [termPath_cons] at h2
          obtain ⟨m, hlm, h2b⟩ := h2
          have hcb : c ∈ sortRunes (n.children.map Prod.fst) := by
            rw [mem_sortRunes]
            exact (lookupChild_isSome_iff _ _).mp ⟨m, hlm⟩
          exact ⟨c, hcb, m, hlm, s2, by simpa using h1, h2b⟩


/-- The walking loop of `ReplaceOrInsert` keeps the map well-formedness
(`nodeWF`) of the node it rebuilds, whatever the key bytes are, and does not
touch the node's own code. -/
theorem insertGo_nodeWF {V : Type} (v : V) :
    ∀ (N : Nat) (s : List Nat), s.length ≤ N → ∀ n : Node V, nodeWF n = true →
      nodeWF (insertGo v n s).1 = true ∧ (insertGo v n s).1.code = n.code := by
  intro N
  induction N with
  | zero =>
    intro s hs n hn
    match s with
    | [] => exact ⟨by simpa [insertGo] using hn, by simp [insertGo]⟩
    | b :: s0 => simp at hs
  | succ N ih =>
    intro s hs n hn
    match s with
    | [] => exact ⟨by simpa [insertGo] using hn, by simp [insertGo]⟩
    | b :: s0 =>
      by_cases he : (decodeRune (b :: s0)).1 = runeError
      · exact ⟨by simpa [insertGo, he] using hn, by simp [insertGo, he]⟩
      · have hn2 := hn
        rw [nodeWF_eq, Bool.and_eq_true] at hn2
        have hlen : ((b :: s0).drop (decodeRune (b :: s0)).2).length ≤ N := by
          have := length_drop_decodeRune (b :: s0) (by simp)
          simp only [List.length_cons] at this hs
          omega
        cases hl : lookupChild n.children (decodeRune (b :: s0)).1 with
        | some m =>
          obtain ⟨hmwf, hmcode⟩ := entriesWF_lookup _ _ _ hn2.2 hl
          cases hs2 : ((b :: s0).drop (decodeRune (b :: s0)).2).isEmpty with
          | true =>
            refine ⟨?_, by simp [insertGo, he, hl, hs2]⟩
            simp only [insertGo, if_neg he, hl, hs2, if_true, eq_self_iff_true,
              Bool.false_eq_true, if_false]
            rw [nodeWF_eq]
            simp only [Node.children_mk, Bool.and_eq_true]
            constructor
            · rw [codesNodup_iff, mapFst_setChild_found _ _ _ _ hl]
              exact (codesNodup_iff _).mp hn2.1
            · refine entriesWF_setChild _ _ _ hn2.2 ?_ (by simpa using hmcode)
              rw [nodeWF_eq] at hmwf ⊢
              simpa using hmwf
          | false =>
            obtain ⟨ih1, ih2⟩ := ih _ hlen m hmwf
            refine ⟨?_, by simp [insertGo, he, hl, hs2]⟩
            simp only [insertGo, if_neg he, hl, hs2, if_true, eq_self_iff_true,
              Bool.false_eq_true, if_false]
            rw [nodeWF_eq]
            simp only [Node.children_mk, Bool.and_eq_true]
            constructor
            · rw [codesNodup_iff, mapFst_setChild_found _ _ _ _ hl]
              exact (codesNodup_iff _).mp hn2.1
            · exact entriesWF_setChild _ _ _ hn2.2 ih1 (by rw [ih2, hmcode])
        | none =>
          have hnotmem : (decodeRune (b :: s0)).1 ∉ n.children.map Prod.fst := by
            intro hmem
            obtain ⟨m0, hm0⟩ := (lookupChild_isSome_iff _ _).mpr hmem
            rw [hl] at hm0
            cases hm0
          have hnodup2 : ((n.children.map Prod.fst) ++ [(decodeRune (b :: s0)).1]).Nodup := by
            have h1 := (codesNodup_iff _).mp hn2.1
            simp [List.nodup_append, h1, hnotmem]
          cases hs2 : ((b :: s0).drop (decodeRune (b :: s0)).2).isEmpty with
          | true =>
            refine ⟨?_, by simp [insertGo, he, hl, hs2]⟩
            simp only [insertGo, if_neg he, hl, hs2, if_true, eq_self_iff_true,
              Bool.false_eq_true, if_false]
            rw [nodeWF_eq]
            simp only [Node.children_mk, Bool.and_eq_true]
            constructor
            · rw [codesNodup_iff, mapFst_setChild_new _ _ _ hl]
              exact hnodup2
            · exact entriesWF_setChild _ _ _ hn2.2 (by simp [nodeWF, codesNodup, entriesWF]) (by simp)
          | false =>
            obtain ⟨ih1, ih2⟩ := ih _ hlen
              (Node.mk (decodeRune (b :: s0)).1 false none [] (n.depth + 1))
              (by simp [nodeWF, codesNodup, entriesWF])
            refine ⟨?_, by simp [insertGo, he, hl, hs2]⟩
            simp only [insertGo, if_neg he, hl, hs2, if_true, eq_self_iff_true,
              Bool.false_eq_true, if_false]
            rw [nodeWF_eq]
            simp only [Node.children_mk, Bool.and_eq_true]
            constructor
            · rw [codesNodup_iff, mapFst_setChild_new _ _ _ hl]
              exact hnodup2
            · exact entriesWF_setChild _ _ _ hn2.2 ih1 (by simpa using ih2)

/-- `Delete`'s walk keeps the map well-formedness of the node it rebuilds
and does not touch the node's own code. -/
theorem delWalk_nodeWF {V : Type} :
    ∀ (p : List Nat) (n n2 : Node V) (removed : Bool) (del : Option (Node V)),
      delWalk n p = some (n2, removed, del) → nodeWF n = true →
      nodeWF n2 = true ∧ n2.code = n.code := by
  intro p
  induction p with
  | nil =>
    intro n n2 removed del hw hn
    cases ht : n.term with
    | false =>
      simp [delWalk, ht] at hw
      obtain ⟨e1, -, -⟩ := hw
      subst e1
      exact ⟨hn, rfl⟩
    | true =>
      cases hce : n.children.isEmpty with
      | true =>
        simp [delWalk, ht, hce] at hw
        obtain ⟨e1, -, -⟩ := hw
        subst e1
        exact ⟨hn, rfl⟩
      | false =>
        simp [delWalk, ht, hce] at hw
        obtain ⟨e1, -, -⟩ := hw
        subst e1
        refine ⟨?_, by simp⟩
        rw [nodeWF_eq] at hn ⊢
        simpa using hn
  | cons c rest ih =>
    intro n n2 removed del hw hn
    rw [delWalk] at hw
    cases hl : lookupChild n.children c with
    | none =>
      rw [hl] at hw
      simp at hw
    | some m =>
      rw [hl] at hw
      simp only [] at hw
      cases hwm : delWalk m rest with
      | none =>
        rw [hwm] at hw
        simp at hw
      | some res =>
        obtain ⟨m2, removedm, delm⟩ := res
        rw [hwm] at hw
        simp only [] at hw
        have hn2 := hn
        rw [nodeWF_eq, Bool.and_eq_true] at hn2
        obtain ⟨hmwf, hmcode⟩ := entriesWF_lookup _ _ _ hn2.2 hl
        obtain ⟨ihw, ihc⟩ := ih m m2 removedm delm hwm hmwf
        cases removedm with
        | true =>
          have hgoal : nodeWF
              (Node.mk n.code n.term n.value (removeChild n.children c) n.depth) = true := by
            rw [nodeWF_eq]
            simp only [Node.children_mk, Bool.and_eq_true]
            constructor
            · rw [codesNodup_iff]
              exact List.Nodup.sublist (mapFst_removeChild_sublist _ _)
                ((codesNodup_iff _).mp hn2.1)
            · exact entriesWF_removeChild _ _ hn2.2
          by_cases hterm : n.term = true
          · simp [hterm] at hw
            obtain ⟨e1, -, -⟩ := hw
            subst e1
            exact ⟨hgoal, by simp⟩
          · have hterm2 : n.term = false := by
              cases htt : n.term with
              | true => exact absurd htt hterm
              | false => rfl
            cases hre : (removeChild n.children c).isEmpty with
            | true =>
              simp [hterm2, hre] at hw
              obtain ⟨e1, -, -⟩ := hw
              subst e1
              exact ⟨hgoal, by simp⟩
            | false =>
              simp [hterm2, hre] at hw
              obtain ⟨e1, -, -⟩ := hw
              subst e1
              exact ⟨hgoal, by simp⟩
        | false =>
          simp at hw
          obtain ⟨e1, -, -⟩ := hw
          subst e1
          refine ⟨?_, by simp⟩
          rw [nodeWF_eq]
          simp only [Node.children_mk, Bool.and_eq_true]
          constructor
          · rw [codesNodup_iff, mapFst_setChild_found _ _ _ _ hl]
            exact (codesNodup_iff _).mp hn2.1
          · exact entriesWF_setChild _ _ _ hn2.2 ihw (by rw [ihc, hmcode])

/-- Every reachable trie has a well-formed root: the model invariant that a
Go `map[rune]*Node` enforces by construction. -/
theorem reachable_nodeWF {V : Type} (t : Trie V) (h : Reachable t) :
    nodeWF t.root = true := by
  induction h with
  | base => simp [newTrie, nodeWF, codesNodup, entriesWF]
  | ins t2 key v ht ih =>
    cases hke : key.isEmpty with
    | true => simpa [Trie.replaceOrInsert, hke] using ih
    | false =>
      obtain ⟨h1, -⟩ := insertGo_nodeWF v key.length key le_rfl t2.root ih
      rcases hio : insertGo v t2.root key with ⟨r0, io⟩
      have hr0 : nodeWF r0 = true := by
        rw [hio] at h1
        exact h1
      cases io <;> simp [Trie.replaceOrInsert, hke, hio, hr0]
  | del t2 key r ht hdel ih =>
    rw [Trie.delete] at hdel
    cases hw : delWalk t2.root (parseTextToRunes key) with
    | none =>
      rw [hw] at hdel
      simp at hdel
    | some res =>
      obtain ⟨n2, removed, del⟩ := res
      rw [hw] at hdel
      obtain ⟨hk, -⟩ := delWalk_nodeWF (parseTextToRunes key) t2.root n2 removed del hw ih
      cases del with
      | some d =>
        simp at hdel
        rw [← hdel]
        exact hk
      | none =>
        simp at hdel
        rw [← hdel]
        exact hk

theorem preKids_nil {V : Type} (iter : List Nat → Option V → Bool)
    (kids : List (Nat × Node V)) (pre : List Nat) :
    preKids iter kids [] pre = [] := by
  rw [preKids]

theorem preKids_cons_some {V : Type} (iter : List Nat → Option V → Bool)
    (kids : List (Nat × Node V)) (c : Nat) (m : Node V) (bs pre : List Nat)
    (hl : lookupChild kids c = some m) :
    preKids iter kids (c :: bs) pre =
      preTraverse iter m (pre ++ [m.code]) ++ preKids iter kids bs pre := by
  rw [preKids]
  congr 1
  split
  · rename_i m2 heq
    rw [hl] at heq
    cases heq
    rfl
  · rename_i heq
    rw [hl] at heq
    cases heq

theorem preKids_cons_none {V : Type} (iter : List Nat → Option V → Bool)
    (kids : List (Nat × Node V)) (c : Nat) (bs pre : List Nat)
    (hl : lookupChild kids c = none) :
    preKids iter kids (c :: bs) pre = preKids iter kids bs pre := by
  rw [preKids]
  split
  · rename_i m2 heq
    rw [hl] at heq
    cases heq
  · rename_i heq
    simp

/-- With an id iterator that always continues, the keys passed to the
iterator are exactly the byte encodings of the enumeration's rune paths. -/
theorem preTraverse_true {V : Type} :
    ∀ (N : Nat) (n : Node V), sizeOf n ≤ N → ∀ pre,
      (preTraverse (fun _ _ => true) n pre).map Prod.fst =
        (preKeys n pre).map parseRunesToText := by
  intro N
  induction N with
  | zero =>
    intro n hsz
    exact absurd hsz (by have := sizeOf_node_pos n; omega)
  | succ N ih =>
    intro n hsz pre
    have hkids : ∀ bs, (preKids (fun _ _ => true) n.children bs pre).map Prod.fst =
        (preKeysKids n.children bs pre).map parseRunesToText := by
      intro bs
      induction bs with
      | nil => simp [preKids_nil, preKeysKids_nil]
      | cons c bs ihb =>
        cases hl : lookupChild n.children c with
        | none =>
          rw [preKids_cons_none _ _ _ _ _ hl, preKeysKids_cons_none _ _ _ _ hl, ihb]
        | some m =>
          rw [preKids_cons_some _ _ _ _ _ _ hl, preKeysKids_cons_some _ _ _ _ _ hl]
          have hszm : sizeOf m ≤ N := by
            have h1 := sizeOf_lookupChild n.children c m hl
            have h2 := sizeOf_children n
            omega
          simp only [List.map_append, ihb, ih m hszm (pre ++ [m.code])]
    rw [preTraverse, preKeys_eq]
    cases ht : n.term with
    | false => simpa [ht] using hkids _
    | true => simpa [ht] using hkids _

/-- C8: on every reachable trie, `Keys()` yields exactly the byte encodings
of the stored keys (the terminating `findNode` paths), in strictly
ascending code-point-sequence (lexicographic) order — hence independent of
insertion order — and the traversal enumerates children in ascending code
order (the sorted, duplicate-free code list that drives it). -/
theorem c8_keys_sorted {V : Type} (t : Trie V) (h : Reachable t) :
    t.keys = (preKeys t.root []).map parseRunesToText ∧
    List.Pairwise (List.Lex (· < ·)) (preKeys t.root []) ∧
    ∀ p, p ∈ preKeys t.root [] ↔ termPath t.root p := by
  have hwf := reachable_nodeWF t h
  obtain ⟨hp, hm⟩ := preKeys_main (sizeOf t.root) t.root le_rfl hwf []
  refine ⟨?_, hp, fun p => ?_⟩
  · have hpt : parseTextToRunes ([] : List Nat) = [] := by
      simp [parseTextToRunes, decodeLoop]
    rw [Trie.keys, Trie.prefixSearch, hpt]
    simp only [findNode]
    exact preTraverse_true (sizeOf t.root) t.root le_rfl []
  · rw [hm p]
    simp

/-- Witness for C8 on the reachable two-key trie {"a", "b"}. -/
theorem c8_witness :
    exTrieA_B.keys = (preKeys exTrieA_B.root []).map parseRunesToText ∧
    List.Pairwise (List.Lex (· < ·)) (preKeys exTrieA_B.root []) ∧
    ∀ p, p ∈ preKeys exTrieA_B.root [] ↔ termPath exTrieA_B.root p :=
  c8_keys_sorted exTrieA_B
    (Reachable.ins exTrieA [0x62] 1 (Reachable.ins (newTrie Nat) [0x61] 0 Reachable.base))

end GoTrie
